import Mathlib

/-!
Verification of the worker-side execution harness of the Beam Rust SDK:
the bundle processor (operator-graph construction and staged lifecycle
execution), the coder registry (URN-keyed coder resolution and one-time
registration), and the external worker pool service.

Pure parts are embedded directly from the Rust source
(`src/sdks/rust/src/coders/register_coders/mod.rs`,
`src/sdks/rust/worker/src/external_worker_service.rs`); the bundle
processor itself (`sdk_worker.rs`) is not part of the provided sources,
so it is modelled from the specification as documented on each of its
definitions.
-/

namespace BeamWorker

/-! ## Generic executable list helpers -/

/-- Boolean membership test for strings, structural so it reduces in the kernel. -/
def memB (x : String) : List String → Bool
  | [] => false
  | y :: l => if y = x then true else memB x l

/-- First index of an element in a list (length of the list if absent). -/
def posOf {α : Type} [DecidableEq α] (a : α) : List α → Nat
  | [] => 0
  | b :: l => if b = a then 0 else posOf a l + 1

/-- Number of occurrences of an element in a list. -/
def countOf {α : Type} [DecidableEq α] (a : α) : List α → Nat
  | [] => 0
  | b :: l => if b = a then countOf a l + 1 else countOf a l

/-- Association-list lookup by string key, mirroring map lookup semantics. -/
def lookupKey {β : Type} (k : String) : List (String × β) → Option β
  | [] => none
  | e :: l => if e.1 = k then some e.2 else lookupKey k l

/-! ## Lexicographic string order (structural, kernel-computable) -/

/-- Lexicographic comparison of character lists via code points. -/
def strLeAux : List Char → List Char → Bool
  | [], _ => true
  | _ :: _, [] => false
  | a :: as, b :: bs =>
    if a.toNat < b.toNat then true
    else if b.toNat < a.toNat then false
    else strLeAux as bs

/-- Lexicographic order on strings via their character data. -/
def strLe (a b : String) : Bool := strLeAux a.data b.data

/-! ## Bundle descriptor data model

Modelled from the spec: the `ProcessBundleDescriptor` / `PTransform` protos
(§3 "Transform Descriptor", "Bundle Descriptor") restricted to the fields the
bundle processor consumes: the behaviour URN, the configuration payload
(for a `Create` root, the list of elements it is configured to emit), and
the port-name-to-channel maps for inputs and outputs. -/

structure PTransform where
  urn : String
  payload : List String
  inputs : List (String × String)
  outputs : List (String × String)
deriving DecidableEq, Repr

/-- One named transform entry of a bundle descriptor. -/
abbrev Entry := String × PTransform

/-- A bundle descriptor: the (unordered) collection of named transforms. -/
abbrev Descriptor := List Entry

/-- Modelled from the spec: the URN constant naming the `Create` source
transform (`internals/urns.rs` is absent from the sources). -/
def CREATE_URN : String := "beam:transform:create:v1"

/-- Modelled from the spec: the URN constant naming the recording test
operator (`internals/urns.rs` is absent from the sources). -/
def RECORDING_URN : String := "beam:transform:recording:v1"

/-- Channels a transform consumes (its input port map's channel ids). -/
def consumedChans (t : PTransform) : List String := t.inputs.map Prod.snd

/-- Channels a transform produces (its output port map's channel ids). -/
def producedChans (t : PTransform) : List String := t.outputs.map Prod.snd

/-- Whether a descriptor entry is a root transform (URN in the root set). -/
def isRootEntry (rootUrns : List String) (e : Entry) : Bool :=
  memB e.2.urn rootUrns

/-- Insertion of an entry into a name-sorted entry list. -/
def insertEntry (e : Entry) : List Entry → List Entry
  | [] => [e]
  | f :: l => if strLe e.1 f.1 then e :: f :: l else f :: insertEntry e l

/-- Modelled from the spec: canonical, iteration-order-independent
presentation of a descriptor's entries (§4.3 step 3 requires the ordering
to be independent of the descriptor's serialization/iteration order), as a
name-sorted entry list. -/
def sortEntries : Descriptor → Descriptor
  | [] => []
  | e :: l => insertEntry e (sortEntries l)

/-! ## Operator graph construction (modelled from the spec, §4.3)

`sdk_worker.rs` (the `BundleProcessor`) is not among the provided sources;
the following definitions model its build algorithm from the spec: partition
entries into roots and non-roots, check that every consumed channel has
exactly one producer, and topologically order the non-root transforms by
producer-to-consumer dependency, independently of iteration order. -/

/-- Whether some entry of the descriptor produces the channel. -/
def hasProducer (d : Descriptor) (ch : String) : Bool :=
  d.any (fun e => memB ch (producedChans e.2))

/-- Number of entries of the descriptor producing the channel. -/
def producerCount (d : Descriptor) (ch : String) : Nat :=
  d.countP (fun e => memB ch (producedChans e.2))

/-- Modelled from the spec: a consumed channel identifier with no producing
transform (first half of the `MalformedDescriptor` condition, §7). -/
def missingProducer (d : Descriptor) : Bool :=
  d.any (fun e => (consumedChans e.2).any (fun ch => !hasProducer d ch))

/-- Modelled from the spec: some channel identifier is produced by two
transforms (second half of the `MalformedDescriptor` condition, §7). -/
def dupProducer (d : Descriptor) : Bool :=
  d.any (fun e => (producedChans e.2).any (fun ch => 2 ≤ producerCount d ch))

/-- Modelled from the spec: the operator factory knows the `Create` source
kind for root transforms and the recording operator kind for non-root
transforms; any other URN is an `UnsupportedUrn` build failure (§4.2). -/
def supportedUrns (rootUrns : List String) (d : Descriptor) : Bool :=
  d.all (fun e =>
    if isRootEntry rootUrns e then e.2.urn = CREATE_URN else e.2.urn = RECORDING_URN)

/-- Modelled from the spec: a non-root transform is ready to be placed in the
topological order when every producer of each of its input channels is a root
transform or has already been placed (§4.3 step 3). -/
def ready (d : Descriptor) (rootUrns : List String) (placed : List String)
    (t : PTransform) : Bool :=
  (consumedChans t).all fun ch =>
    d.all fun e =>
      !memB ch (producedChans e.2) || isRootEntry rootUrns e || memB e.1 placed

/-- First ready entry of the worklist, together with the remaining entries. -/
def pickReady (d : Descriptor) (rootUrns : List String) (placed : List String) :
    List Entry → Option (Entry × List Entry)
  | [] => none
  | e :: es =>
    if ready d rootUrns placed e.2 then some (e, es)
    else
      match pickReady d rootUrns placed es with
      | none => none
      | some (r, rest) => some (r, e :: rest)

/-- Modelled from the spec: Kahn-style topological ordering of the non-root
entries, repeatedly placing the first ready entry of the name-sorted
worklist; fails (returns `none`) if the dependencies are cyclic. -/
def kahnLoop (d : Descriptor) (rootUrns : List String) :
    Nat → List String → List Entry → Option (List Entry)
  | _, _, [] => some []
  | 0, _, _ :: _ => none
  | fuel + 1, placed, e :: es =>
    match pickReady d rootUrns placed (e :: es) with
    | none => none
    | some (r, rest) =>
      match kahnLoop d rootUrns fuel (r.1 :: placed) rest with
      | none => none
      | some ts => some (r :: ts)

/-- Non-root entries of a descriptor, in presentation order. -/
def nonRootEntries (rootUrns : List String) (d : Descriptor) : List Entry :=
  d.filter (fun e => !isRootEntry rootUrns e)

/-- Root entries of a descriptor, in presentation order. -/
def rootEntries (rootUrns : List String) (d : Descriptor) : List Entry :=
  d.filter (fun e => isRootEntry rootUrns e)

/-- Errors detected while building the operator graph, before any lifecycle
call (spec §7). -/
inductive BuildError
  | malformedDescriptor
  | unsupportedUrn
  | cyclicDescriptor
deriving DecidableEq, Repr

/-- Modelled from the spec: `BundleProcessor::new` on an already canonical
(name-sorted) descriptor — validate channels and URNs, then topologically
order the non-root transforms (§4.3 steps 1–5). -/
def buildTopoC (c : Descriptor) (rootUrns : List String) :
    Except BuildError (List Entry) :=
  if missingProducer c then .error .malformedDescriptor
  else if dupProducer c then .error .malformedDescriptor
  else if !supportedUrns rootUrns c then .error .unsupportedUrn
  else
    match kahnLoop c rootUrns (nonRootEntries rootUrns c).length []
        (nonRootEntries rootUrns c) with
    | none => .error .cyclicDescriptor
    | some ts => .ok ts

/-- One recorded lifecycle or element-processing call (the process-wide
test-observation log of spec §6, in structured form). -/
inductive Event
  | start (name : String)
  | process (name : String) (elem : String)
  | finish (name : String)
deriving DecidableEq, Repr

/-- Rendering of a recorded call in the exact string format the recording
operators append to `RECORDING_OPERATOR_LOGS`. -/
def render : Event → String
  | .start n => n ++ ".start_bundle()"
  | .process n e => n ++ ".process(\"" ++ e ++ "\")"
  | .finish n => n ++ ".finish_bundle()"

/-- Modelled from the spec: depth-first synchronous fan-out (§4.2). Deliver
one element into a channel: each not-yet-visited downstream operator (the
suffix of the topological order) that consumes the channel logs a `process`
call and recursively forwards the element through its own output channels,
fully depth-first, before later consumers of the same channel run. -/
def deliverChan : List Entry → String → String → List Event
  | [], _, _ => []
  | e :: rest, ch, el =>
    if memB ch (consumedChans e.2) then
      Event.process e.1 el ::
        (((producedChans e.2).map (fun oc => deliverChan rest oc el)).flatten
          ++ deliverChan rest ch el)
    else deliverChan rest ch el

/-- Delivery of one element into each channel of a list, in order. -/
def deliverChans (ops : List Entry) (chs : List String) (el : String) :
    List Event :=
  (chs.map (fun ch => deliverChan ops ch el)).flatten

/-- Modelled from the spec: the drive phase (§4.3) — for each root transform
in canonical order, inject each element it is configured to emit into its
output channels, one element flowing fully depth-first before the next. -/
def driveEvents (ts : List Entry) (roots : List Entry) : List Event :=
  (roots.map (fun r =>
    (r.2.payload.map (fun el => deliverChans ts (producedChans r.2) el)).flatten)).flatten

/-- Modelled from the spec: the three strictly ordered phases of
`BundleProcessor::process` (§4.3) — `start_bundle` on every non-root
operator in reverse topological order, the drive phase, then
`finish_bundle` on every non-root operator in forward topological order. -/
def runOrderedTopo (c : Descriptor) (rootUrns : List String)
    (ts : List Entry) : List Event :=
  (ts.map (fun e => Event.start e.1)).reverse
    ++ driveEvents ts (rootEntries rootUrns c)
    ++ ts.map (fun e => Event.finish e.1)

/-- Build and run on an already canonical descriptor. -/
def runC (c : Descriptor) (rootUrns : List String) :
    Except BuildError (List Event) :=
  match buildTopoC c rootUrns with
  | .error err => .error err
  | .ok ts => .ok (runOrderedTopo c rootUrns ts)

/-- Modelled from the spec: `BundleProcessor::new` followed by `process` —
canonicalize the descriptor's entry order, build the operator graph, and
execute the bundle, returning the recorded call log (or the build error,
raised before any lifecycle call). -/
def runBundle (d : Descriptor) (rootUrns : List String) :
    Except BuildError (List Event) :=
  runC (sortEntries d) rootUrns

/-! ## Coder registry (`src/sdks/rust/src/coders/register_coders/mod.rs`)

The `register_coders!` macro generates a `coder_from_urn` function and the
`init_custom_coder_from_urn` initializers; the embedding below is that
generated code for an arbitrary list of registered custom coder names. -/

/-- A coder URN tree: a URN together with ordered component subtrees
(`CoderUrnTree` of `coders/pipeline_construction`; the struct itself is
absent from the sources, its shape follows spec §3 "Coder URN Tree"). -/
inductive CoderUrnTree
  | node (coderUrn : String) (components : List CoderUrnTree)
deriving Repr

/-- Root URN of a coder URN tree (the `coder_urn` field the generated
`coder_from_urn` reads). -/
def CoderUrnTree.coderUrn : CoderUrnTree → String
  | .node u _ => u

/-- Component subtrees of a coder URN tree. -/
def CoderUrnTree.components : CoderUrnTree → List CoderUrnTree
  | .node _ cs => cs

/-- The preset (built-in) coder variants, in the declaration order
`strum::IntoEnumIterator` iterates them. -/
inductive PresetCoderUrn
  | bytes
  | kv
  | iterable
  | nullable
  | strUtf8
  | varInt
  | unit
  | generalObject
deriving DecidableEq, Repr, Fintype

/-- Modelled from the spec: the URN string of each preset coder variant
(`PresetCoderUrn::as_str`; `coders/urns.rs` is absent from the sources —
only distinctness of the strings matters here). -/
def PresetCoderUrn.asStr : PresetCoderUrn → String
  | .bytes => "beam:coder:bytes:v1"
  | .kv => "beam:coder:kv:v1"
  | .iterable => "beam:coder:iterable:v1"
  | .nullable => "beam:coder:nullable:v1"
  | .strUtf8 => "beam:coder:string_utf8:v1"
  | .varInt => "beam:coder:varint:v1"
  | .unit => "beam:coder:rustsdk:1.0:unit"
  | .generalObject => "beam:coder:rustsdk:1.0:generalobject"

/-- The list `PresetCoderUrn::iter()` traverses. -/
def presetVariants : List PresetCoderUrn :=
  [.bytes, .kv, .iterable, .nullable, .strUtf8, .varInt, .unit, .generalObject]

/-- The URN the `register_coders!` macro assigns to a custom coder type:
`concat!("beam:coder:rustsdk:1.0:", stringify!($coder))`. -/
def customCoderUrn (name : String) : String := "beam:coder:rustsdk:1.0:" ++ name

/-- A coder instance as observably constructed by `coder_from_urn`. -/
inductive CoderValue
  | bytes
  | strUtf8
  | generalObject
  | custom (name : String)
deriving DecidableEq, Repr

/-- The panics `coder_from_urn` can raise: the `todo!` arms for composite
preset coders, the `todo!("make UnitCoder")` arm, and
`panic!("unknown urn: {}", urn)`. -/
inductive CoderPanic
  | todoComponents (urn : String)
  | todoUnit (urn : String)
  | unknownUrn (urn : String)
deriving DecidableEq, Repr

/-- The generated `coder_from_urn` of `register_coders/mod.rs` (lines
32–67), for registered custom coder names `customs`. It reads only
`urn_tree.coder_urn`: preset variants are matched first (`BytesCoder`,
`StrUtf8Coder` and `GeneralObjectCoder` are constructed with an empty
component vector, the other preset arms are `todo!` panics), then the
custom table (`Box::<$coder>::default()`), else it panics with
`unknown urn`. Alongside the constructed coder it returns the trace of
constructor invocations as (URN, component coders passed) pairs. -/
def coder_from_urn (customs : List String) (urnTree : CoderUrnTree) :
    Except CoderPanic (CoderValue × List (String × List CoderValue)) :=
  match presetVariants.find? (fun v => v.asStr = urnTree.coderUrn) with
  | some .bytes => .ok (.bytes, [(urnTree.coderUrn, [])])
  | some .kv => .error (.todoComponents urnTree.coderUrn)
  | some .iterable => .error (.todoComponents urnTree.coderUrn)
  | some .nullable => .error (.todoComponents urnTree.coderUrn)
  | some .strUtf8 => .ok (.strUtf8, [(urnTree.coderUrn, [])])
  | some .varInt => .error (.todoComponents urnTree.coderUrn)
  | some .unit => .error (.todoUnit urnTree.coderUrn)
  | some .generalObject => .ok (.generalObject, [(urnTree.coderUrn, [])])
  | none =>
    match customs.find? (fun name => customCoderUrn name = urnTree.coderUrn) with
    | some name => .ok (.custom name, [(urnTree.coderUrn, [])])
    | none => .error (.unknownUrn urnTree.coderUrn)

/-- The double-registration failure of the production initializer. -/
inductive RegError
  | doubleRegistration
deriving DecidableEq, Repr

/-- The production-mode (`#[cfg(not(test))]`) `init_custom_coder_from_urn`:
`CODER_FROM_URN.set(..).expect("CODER_FROM_URN singleton is already
initialized")` — a `OnceLock::set` that panics if the slot is already
filled, leaving the original table in place. The installed table is
represented by its list of registered coder names. -/
def init_custom_coder_from_urn_prod (slot : Option (List String))
    (tbl : List String) : Except RegError (Option (List String)) :=
  match slot with
  | none => .ok (some tbl)
  | some _ => .error .doubleRegistration

/-- The test-mode (`#[cfg(test)]`) `init_custom_coder_from_urn`:
`*CODER_FROM_URN.write().unwrap() = Some(..)` — an unconditional overwrite
of the slot with the newly generated table. -/
def init_custom_coder_from_urn_test (_prev : Option (List String))
    (tbl : List String) : Option (List String) :=
  some tbl

/-! ## External worker pool (`worker/src/external_worker_service.rs`)

The worker table guarded by the service's mutex, and the two request
handlers `start_worker` / `stop_worker`. `Worker::new` and `Worker::stop`
live in the absent `sdk_worker.rs`; a worker record is modelled by the id
and endpoint configuration it is constructed from, and `stop` by the
stop-signal the handler emits (returned as a list of signalled ids). -/

/-- The endpoint configuration a worker is constructed with
(`WorkerEndpoints::new(control_endpoint_url)`). -/
structure WorkerEndpoints where
  controlEndpointUrl : Option String
deriving DecidableEq, Repr

/-- A worker record as stored in the pool's table. -/
structure Worker where
  workerId : String
  endpoints : WorkerEndpoints
deriving DecidableEq, Repr

/-- Constructor `Worker::new(id, endpoints)`. -/
def Worker.new (id : String) (endpoints : WorkerEndpoints) : Worker :=
  ⟨id, endpoints⟩

/-- The pool's worker table (`HashMap<String, Worker>`), as an association
list with map-insert/remove semantics. -/
abbrev WorkerTable := List (String × Worker)

/-- `HashMap::insert` semantics: replace the record under the key if
present, otherwise append a new record. -/
def insertWorker (tbl : WorkerTable) (id : String) (w : Worker) : WorkerTable :=
  if memB id (tbl.map Prod.fst) then
    tbl.map (fun e => if e.1 = id then (id, w) else e)
  else tbl ++ [(id, w)]

/-- `HashMap::remove` semantics: afterwards no record is stored under the key. -/
def removeWorker (tbl : WorkerTable) (id : String) : WorkerTable :=
  tbl.filter (fun e => !(e.1 = id : Bool))

/-- A `StartWorkerRequest`: the worker id and the optional control endpoint
(of which the handler reads `.url`). -/
structure StartWorkerRequest where
  workerId : String
  controlEndpointUrl : Option String
deriving DecidableEq, Repr

/-- A `StopWorkerRequest`: the worker id. -/
structure StopWorkerRequest where
  workerId : String
deriving DecidableEq, Repr

/-- Proto-default `StartWorkerResponse` (`error` field empty). -/
structure StartWorkerResponse where
  error : String
deriving DecidableEq, Repr

/-- Proto-default `StopWorkerResponse` (`error` field empty). -/
structure StopWorkerResponse where
  error : String
deriving DecidableEq, Repr

/-- A gRPC `Status` error (the handlers' `Err` alternative, never taken). -/
inductive GrpcStatus
  | internal (msg : String)
deriving DecidableEq, Repr

/-- Handler `start_worker` (lines 45–64): under the lock, insert a fresh
`Worker::new(worker_id, WorkerEndpoints::new(control_endpoint_url))` under
the request's id (replacing any stored record) and answer with the default
response. The third component is the list of stop-signals emitted: none. -/
def start_worker (tbl : WorkerTable) (req : StartWorkerRequest) :
    Except GrpcStatus (WorkerTable × StartWorkerResponse × List String) :=
  .ok (insertWorker tbl req.workerId
        (Worker.new req.workerId ⟨req.controlEndpointUrl⟩),
       ⟨""⟩, [])

/-- Handler `stop_worker` (lines 66–81): under the lock, if a record is
stored under the request's id, signal it to stop (`w.stop()`) and remove
it; in either case answer with the default response. The third component
is the list of stop-signals emitted. -/
def stop_worker (tbl : WorkerTable) (req : StopWorkerRequest) :
    Except GrpcStatus (WorkerTable × StopWorkerResponse × List String) :=
  match lookupKey req.workerId tbl with
  | some w => .ok (removeWorker tbl req.workerId, ⟨""⟩, [w.workerId])
  | none => .ok (tbl, ⟨""⟩, [])

/-! ## The literal test scenario (`worker/mod.rs`, `test_operator_construction`) -/

/-- Transform `x` of the scenario: root `Create` source emitting
`"a","b","c"` on channel `pc1`. -/
def xT : PTransform := ⟨CREATE_URN, ["a", "b", "c"], [], [("out", "pc1")]⟩

/-- Transform `y` of the scenario: recording operator consuming `pc1`,
producing `pc2`. -/
def yT : PTransform := ⟨RECORDING_URN, [], [("input", "pc1")], [("out", "pc2")]⟩

/-- Transform `z` of the scenario: recording operator consuming `pc2`,
with no output. -/
def zT : PTransform := ⟨RECORDING_URN, [], [("input", "pc2")], []⟩

/-- The scenario descriptor, in the deliberately inverted presentation
order of the test (`y`, `z`, `x`). -/
def scenario : Descriptor := [("y", yT), ("z", zT), ("x", xT)]

/-- A reshuffled presentation of the same scenario entries. -/
def scenarioShuffled : Descriptor := [("z", zT), ("x", xT), ("y", yT)]

/-- The structured call log the scenario run produces. -/
def scenarioEvents : List Event :=
  [.start "z", .start "y",
   .process "y" "a", .process "z" "a",
   .process "y" "b", .process "z" "b",
   .process "y" "c", .process "z" "c",
   .finish "y", .finish "z"]

/-- Name-sortedness of an entry list. -/
def SortedEnt (l : List Entry) : Prop :=
  l.Pairwise (fun a b => strLe a.1 b.1 = true)

/-- The invariant the Kahn loop maintains: every entry of the list is ready
at its position, given the names placed before it (on top of `placed`). -/
def TopoFrom (d : Descriptor) (rootUrns : List String) :
    List String → List Entry → Prop
  | _, [] => True
  | placed, e :: ts =>
    ready d rootUrns placed e.2 = true ∧ TopoFrom d rootUrns (e.1 :: placed) ts

/-! ## Theorems

First the order-theoretic facts about the canonical entry ordering, then
the claims about the bundle processor, the coder registry and the worker
pool. -/

theorem char_eq_of_toNat_eq {a b : Char} (h : a.toNat = b.toNat) : a = b :=
  Char.eq_of_val_eq (UInt32.ext h)

theorem strLeAux_total : ∀ as bs : List Char,
    strLeAux as bs = true ∨ strLeAux bs as = true := by
  intro as
  induction as with
  | nil => intro bs; left; cases bs <;> rfl
  | cons a as ih =>
    intro bs
    cases bs with
    | nil => right; rfl
    | cons b bs =>
      by_cases h1 : a.toNat < b.toNat
      · left; simp [strLeAux, h1]
      · by_cases h2 : b.toNat < a.toNat
        · right; simp [strLeAux, h2]
        · rcases ih bs with h | h
          · left; simp [strLeAux, h1, h2, h]
          · right; simp [strLeAux, h1, h2, h]

theorem strLeAux_antisymm : ∀ as bs : List Char,
    strLeAux as bs = true → strLeAux bs as = true → as = bs := by
  intro as
  induction as with
  | nil =>
    intro bs h1 h2
    cases bs with
    | nil => rfl
    | cons b bs => simp [strLeAux] at h2
  | cons a as ih =>
    intro bs h1 h2
    cases bs with
    | nil => simp [strLeAux] at h1
    | cons b bs =>
      by_cases hab : a.toNat < b.toNat
      · have hba : ¬ b.toNat < a.toNat := by omega
        simp [strLeAux, hab, hba] at h2
      · by_cases hba : b.toNat < a.toNat
        · simp [strLeAux, hab, hba] at h1
        · have hcc : a = b := char_eq_of_toNat_eq (by omega)
          subst hcc
          simp only [strLeAux, hab, if_neg, if_false] at h1 h2
          rw [ih bs h1 h2]

theorem strLeAux_trans : ∀ as bs cs : List Char,
    strLeAux as bs = true → strLeAux bs cs = true → strLeAux as cs = true := by
  intro as
  induction as with
  | nil => intro bs cs _ _; cases cs <;> rfl
  | cons a as ih =>
    intro bs cs h1 h2
    cases bs with
    | nil => simp [strLeAux] at h1
    | cons b bs =>
      cases cs with
      | nil => simp [strLeAux] at h2
      | cons c cs =>
        by_cases hab : a.toNat < b.toNat
        · by_cases hbc : b.toNat < c.toNat
          · have : a.toNat < c.toNat := by omega
            simp [strLeAux, this]
          · by_cases hcb : c.toNat < b.toNat
            · simp [strLeAux, hbc, hcb] at h2
            · have : a.toNat < c.toNat := by omega
              simp [strLeAux, this]
        · by_cases hba : b.toNat < a.toNat
          · simp [strLeAux, hab, hba] at h1
          · have hcc : a = b := char_eq_of_toNat_eq (by omega)
            subst hcc
            simp only [strLeAux, hab, if_neg, if_false] at h1
            by_cases hbc : a.toNat < c.toNat
            · simp [strLeAux, hbc]
            · by_cases hcb : c.toNat < a.toNat
              · simp [strLeAux, hbc, hcb] at h2
              · simp only [strLeAux, hbc, hcb, if_neg, if_false] at h2 ⊢
                exact ih bs cs h1 h2

theorem strLe_total (a b : String) : strLe a b = true ∨ strLe b a = true :=
  strLeAux_total a.data b.data

theorem strLe_trans {a b c : String} (h1 : strLe a b = true)
    (h2 : strLe b c = true) : strLe a c = true :=
  strLeAux_trans a.data b.data c.data h1 h2

theorem strLe_antisymm {a b : String} (h1 : strLe a b = true)
    (h2 : strLe b a = true) : a = b := by
  cases a with
  | mk da =>
    cases b with
    | mk db => exact congrArg String.mk (strLeAux_antisymm da db h1 h2)

theorem perm_insertEntry (e : Entry) (l : List Entry) :
    (insertEntry e l).Perm (e :: l) := by
  induction l with
  | nil => exact List.Perm.refl _
  | cons f l ih =>
    by_cases h : strLe e.1 f.1
    · simp [insertEntry, h]
    · simp only [insertEntry, h, if_neg, if_false]
      exact (ih.cons f).trans (List.Perm.swap e f l)

theorem perm_sortEntries (d : Descriptor) : (sortEntries d).Perm d := by
  induction d with
  | nil => exact List.Perm.refl _
  | cons e l ih =>
    exact (perm_insertEntry e (sortEntries l)).trans (ih.cons e)

theorem sorted_insertEntry (e : Entry) (l : List Entry) (h : SortedEnt l) :
    SortedEnt (insertEntry e l) := by
  induction l with
  | nil => simp [insertEntry, SortedEnt]
  | cons f l ih =>
    by_cases hef : strLe e.1 f.1
    · simp only [insertEntry, hef, if_pos]
      refine List.Pairwise.cons ?_ h
      intro x hx
      rcases List.mem_cons.mp hx with hx | hx
      · subst hx; exact hef
      · exact strLe_trans hef ((List.pairwise_cons.mp h).1 x hx)
    · simp only [insertEntry, hef, if_neg, if_false]
      have hfe : strLe f.1 e.1 = true :=
        (strLe_total e.1 f.1).resolve_left hef
      refine List.Pairwise.cons ?_ (ih (List.Pairwise.of_cons h))
      intro x hx
      have hx' : x ∈ e :: l := (perm_insertEntry e l).mem_iff.mp hx
      rcases List.mem_cons.mp hx' with hx' | hx'
      · subst hx'; exact hfe
      · exact (List.pairwise_cons.mp h).1 x hx'

theorem sorted_sortEntries (d : Descriptor) : SortedEnt (sortEntries d) := by
  induction d with
  | nil => exact List.Pairwise.nil
  | cons e l ih => exact sorted_insertEntry e (sortEntries l) ih

theorem sortedEnt_eq : ∀ l₁ l₂ : List Entry, l₁.Perm l₂ → SortedEnt l₁ →
    SortedEnt l₂ → (l₁.map Prod.fst).Nodup → l₁ = l₂ := by
  intro l₁
  induction l₁ with
  | nil =>
    intro l₂ hp _ _ _
    exact hp.nil_eq
  | cons a t₁ ih =>
    intro l₂ hp hs₁ hs₂ hnd
    cases l₂ with
    | nil => exact absurd hp.symm.nil_eq (by simp)
    | cons b t₂ =>
      have hab : a = b := by
        have hamem : a ∈ b :: t₂ := hp.mem_iff.mp (List.mem_cons_self a t₁)
        rcases List.mem_cons.mp hamem with h | hat₂
        · exact h
        · have hbmem : b ∈ a :: t₁ := hp.mem_iff.mpr (List.mem_cons_self b t₂)
          rcases List.mem_cons.mp hbmem with h | hbt₁
          · exact h.symm
          · have h1 : strLe a.1 b.1 = true :=
              (List.pairwise_cons.mp hs₁).1 b hbt₁
            have h2 : strLe b.1 a.1 = true :=
              (List.pairwise_cons.mp hs₂).1 a hat₂
            have hname : a.1 = b.1 := strLe_antisymm h1 h2
            exfalso
            have : a.1 ∈ t₁.map Prod.fst :=
              List.mem_map.mpr ⟨b, hbt₁, hname.symm⟩
            exact (List.nodup_cons.mp hnd).1 this
      subst hab
      have htails : t₁.Perm t₂ := hp.cons_inv
      rw [ih t₂ htails (List.Pairwise.of_cons hs₁) (List.Pairwise.of_cons hs₂)
        (List.nodup_cons.mp hnd).2]

theorem sortEntries_eq_of_perm (d₁ d₂ : Descriptor)
    (hnd : (d₁.map Prod.fst).Nodup) (hp : d₁.Perm d₂) :
    sortEntries d₁ = sortEntries d₂ := by
  refine sortedEnt_eq (sortEntries d₁) (sortEntries d₂)
    ((perm_sortEntries d₁).trans (hp.trans (perm_sortEntries d₂).symm))
    (sorted_sortEntries d₁) (sorted_sortEntries d₂) ?_
  have : ((sortEntries d₁).map Prod.fst).Perm (d₁.map Prod.fst) :=
    (perm_sortEntries d₁).map Prod.fst
  exact this.nodup_iff.mpr hnd

/-- C2: for every bundle descriptor (its transform names distinct, as map
entries are) and every permutation of the iteration order in which its
entries are presented, building the operator graph and executing the bundle
yields the identical outcome, call log included: graph construction is
independent of map iteration order. -/
theorem order_independent_execution (d₁ d₂ : Descriptor)
    (rootUrns : List String) (hnd : (d₁.map Prod.fst).Nodup)
    (hperm : d₁.Perm d₂) :
    runBundle d₁ rootUrns = runBundle d₂ rootUrns := by
  unfold runBundle
  rw [sortEntries_eq_of_perm d₁ d₂ hnd hperm]

/-- Witness for C2: the literal scenario descriptor against a reshuffled
presentation of the same entries. -/
theorem order_independent_execution_witness :
    (scenario.map Prod.fst).Nodup ∧ scenario.Perm scenarioShuffled ∧
    runBundle scenario [CREATE_URN] = runBundle scenarioShuffled [CREATE_URN] :=
  ⟨by decide, by decide,
    order_independent_execution scenario scenarioShuffled [CREATE_URN]
      (by decide) (by decide)⟩

theorem memB_iff (x : String) : ∀ l : List String, memB x l = true ↔ x ∈ l := by
  intro l
  induction l with
  | nil => simp [memB]
  | cons y l ih =>
    rw [memB]
    by_cases h : y = x
    · subst h; simp
    · simp only [h, if_false, ih, List.mem_cons]
      constructor
      · exact fun hx => Or.inr hx
      · rintro (hx | hx)
        · exact absurd hx.symm h
        · exact hx

theorem lookupKey_removeWorker_self (tbl : WorkerTable) (id : String) :
    lookupKey id (removeWorker tbl id) = none := by
  induction tbl with
  | nil => rfl
  | cons e tbl ih =>
    by_cases h : e.1 = id
    · simpa [removeWorker, h] using ih
    · simpa [removeWorker, lookupKey, h] using ih

theorem lookupKey_map_replace_self (id : String) (w : Worker) :
    ∀ tbl : WorkerTable, memB id (tbl.map Prod.fst) = true →
    lookupKey id (tbl.map (fun e => if e.1 = id then (id, w) else e)) = some w := by
  intro tbl
  induction tbl with
  | nil => intro h; simp [memB] at h
  | cons e tbl ih =>
    intro hmem
    by_cases h : e.1 = id
    · simp [lookupKey, h]
    · have hmem2 : memB id (tbl.map Prod.fst) = true := by
        rw [List.map_cons, memB, if_neg h] at hmem
        exact hmem
      simp only [List.map_cons, if_neg h, lookupKey]
      exact ih hmem2

theorem lookupKey_append_single_self (id : String) (w : Worker) :
    ∀ tbl : WorkerTable, memB id (tbl.map Prod.fst) = false →
    lookupKey id (tbl ++ [(id, w)]) = some w := by
  intro tbl
  induction tbl with
  | nil => intro _; simp [lookupKey]
  | cons e tbl ih =>
    intro hmem
    have h : ¬ (e.1 = id) := by
      intro h
      rw [List.map_cons, memB, if_pos h] at hmem
      exact absurd hmem (by decide)
    have hmem2 : memB id (tbl.map Prod.fst) = false := by
      rw [List.map_cons, memB, if_neg h] at hmem
      exact hmem
    rw [List.cons_append, lookupKey, if_neg h]
    exact ih hmem2

theorem lookupKey_map_replace_other (id k : String) (w : Worker) (hk : k ≠ id) :
    ∀ tbl : WorkerTable,
    lookupKey k (tbl.map (fun e => if e.1 = id then (id, w) else e))
      = lookupKey k tbl := by
  intro tbl
  induction tbl with
  | nil => rfl
  | cons e tbl ih =>
    by_cases h : e.1 = id
    · have h1 : ¬ (id = k) := fun he => hk he.symm
      have h2 : ¬ (e.1 = k) := h ▸ h1
      simp only [List.map_cons, if_pos h, lookupKey]
      rw [if_neg h1, if_neg h2]
      exact ih
    · simp only [List.map_cons, if_neg h, lookupKey]
      by_cases hek : e.1 = k
      · rw [if_pos hek, if_pos hek]
      · rw [if_neg hek, if_neg hek]
        exact ih

theorem lookupKey_append_single_other (id k : String) (w : Worker)
    (hk : k ≠ id) :
    ∀ tbl : WorkerTable, lookupKey k (tbl ++ [(id, w)]) = lookupKey k tbl := by
  intro tbl
  induction tbl with
  | nil =>
    have h1 : ¬ (id = k) := fun he => hk he.symm
    simp [lookupKey, h1]
  | cons e tbl ih =>
    rw [List.cons_append, lookupKey, lookupKey]
    by_cases hek : e.1 = k
    · rw [if_pos hek, if_pos hek]
    · rw [if_neg hek, if_neg hek]
      exact ih

theorem lookupKey_insertWorker_self (tbl : WorkerTable) (id : String)
    (w : Worker) : lookupKey id (insertWorker tbl id w) = some w := by
  unfold insertWorker
  cases hmem : memB id (tbl.map Prod.fst) with
  | true =>
    rw [if_pos rfl]
    exact lookupKey_map_replace_self id w tbl hmem
  | false =>
    rw [if_neg (by decide : ¬ (false = true))]
    exact lookupKey_append_single_self id w tbl hmem

theorem lookupKey_insertWorker_other (tbl : WorkerTable) (id k : String)
    (w : Worker) (hk : k ≠ id) :
    lookupKey k (insertWorker tbl id w) = lookupKey k tbl := by
  unfold insertWorker
  cases hmem : memB id (tbl.map Prod.fst) with
  | true =>
    rw [if_pos rfl]
    exact lookupKey_map_replace_other id k w hk tbl
  | false =>
    rw [if_neg (by decide : ¬ (false = true))]
    exact lookupKey_append_single_other id k w hk tbl

/-- C9: `stop_worker` with an id present in the worker table signals that
worker to stop and removes its record, so a `start_worker(id)` followed by
`stop_worker(id)` leaves the table without an entry for `id`; `stop_worker`
with an absent id is a no-op that leaves the table unchanged and returns an
acknowledgment rather than an error. -/
theorem stop_worker_spec (tbl : WorkerTable) (id : String) :
    (∀ w, lookupKey id tbl = some w →
      stop_worker tbl ⟨id⟩ = .ok (removeWorker tbl id, ⟨""⟩, [w.workerId]) ∧
      lookupKey id (removeWorker tbl id) = none) ∧
    (∀ (req : StartWorkerRequest), req.workerId = id →
      ∀ tbl1 resp1 sigs1,
        start_worker tbl req = .ok (tbl1, resp1, sigs1) →
      ∀ tbl2 resp2 sigs2,
        stop_worker tbl1 ⟨id⟩ = .ok (tbl2, resp2, sigs2) →
      lookupKey id tbl2 = none) ∧
    (lookupKey id tbl = none → stop_worker tbl ⟨id⟩ = .ok (tbl, ⟨""⟩, [])) := by
  refine ⟨?_, ?_, ?_⟩
  · intro w hw
    constructor
    · simp [stop_worker, hw]
    · exact lookupKey_removeWorker_self tbl id
  · intro req hreq tbl1 resp1 sigs1 h1 tbl2 resp2 sigs2 h2
    unfold start_worker at h1
    have h1p : (insertWorker tbl req.workerId
          (Worker.new req.workerId ⟨req.controlEndpointUrl⟩),
        (⟨""⟩ : StartWorkerResponse), ([] : List String))
        = (tbl1, resp1, sigs1) := by
      injection h1
    have htbl1 : tbl1 = insertWorker tbl req.workerId
        (Worker.new req.workerId ⟨req.controlEndpointUrl⟩) :=
      (congrArg Prod.fst h1p).symm
    have hlook : lookupKey id tbl1 =
        some (Worker.new req.workerId ⟨req.controlEndpointUrl⟩) := by
      rw [htbl1, hreq]
      exact lookupKey_insertWorker_self tbl id _
    rw [stop_worker] at h2
    rw [hlook] at h2
    have h2p : (removeWorker tbl1 id, (⟨""⟩ : StopWorkerResponse),
        [(Worker.new req.workerId ⟨req.controlEndpointUrl⟩).workerId])
        = (tbl2, resp2, sigs2) := by
      injection h2
    have htbl2 : tbl2 = removeWorker tbl1 id := (congrArg Prod.fst h2p).symm
    rw [htbl2]
    exact lookupKey_removeWorker_self tbl1 id
  · intro h
    simp [stop_worker, h]

/-- Witness for C9, at the literal table holding worker `W1`. -/
theorem stop_worker_spec_witness :
    stop_worker [("W1", Worker.new "W1" ⟨some "url"⟩)] ⟨"W1"⟩
      = .ok ([], ⟨""⟩, ["W1"]) ∧
    lookupKey "W1"
      (removeWorker [("W1", Worker.new "W1" ⟨some "url"⟩)] "W1") = none ∧
    lookupKey "W1"
      (removeWorker
        (insertWorker [] "W1" (Worker.new "W1" ⟨some "url"⟩)) "W1") = none ∧
    stop_worker ([] : WorkerTable) ⟨"W1"⟩ = .ok ([], ⟨""⟩, []) := by
  refine ⟨?_, ?_, ?_, ?_⟩
  · exact ((stop_worker_spec [("W1", Worker.new "W1" ⟨some "url"⟩)] "W1").1
      (Worker.new "W1" ⟨some "url"⟩) rfl).1
  · exact ((stop_worker_spec [("W1", Worker.new "W1" ⟨some "url"⟩)] "W1").1
      (Worker.new "W1" ⟨some "url"⟩) rfl).2
  · exact (stop_worker_spec [] "W1").2.1 ⟨"W1", some "url"⟩ rfl
      _ _ _ rfl _ _ _ rfl
  · exact (stop_worker_spec [] "W1").2.2 rfl

/-- C10: `start_worker` on an id that already has a record replaces the
stored record with a fresh one built from the request's control endpoint,
emits no stop-signal to the previously stored worker, leaves every record
under any other id unchanged, and returns the default success
acknowledgment. -/
theorem start_worker_replaces (tbl : WorkerTable) (req : StartWorkerRequest)
    (old : Worker) (_hold : lookupKey req.workerId tbl = some old) :
    start_worker tbl req =
      .ok (insertWorker tbl req.workerId
            (Worker.new req.workerId ⟨req.controlEndpointUrl⟩), ⟨""⟩, []) ∧
    lookupKey req.workerId
      (insertWorker tbl req.workerId
        (Worker.new req.workerId ⟨req.controlEndpointUrl⟩))
      = some (Worker.new req.workerId ⟨req.controlEndpointUrl⟩) ∧
    ∀ k, k ≠ req.workerId →
      lookupKey k (insertWorker tbl req.workerId
        (Worker.new req.workerId ⟨req.controlEndpointUrl⟩))
        = lookupKey k tbl := by
  refine ⟨rfl, lookupKey_insertWorker_self tbl req.workerId _, ?_⟩
  intro k hk
  exact lookupKey_insertWorker_other tbl req.workerId k _ hk

/-- Witness for C10: restarting `W1` over a two-worker table. -/
theorem start_worker_replaces_witness :
    start_worker
        [("W1", Worker.new "W1" ⟨some "old"⟩), ("W2", Worker.new "W2" ⟨none⟩)]
        ⟨"W1", some "new"⟩
      = .ok (insertWorker
              [("W1", Worker.new "W1" ⟨some "old"⟩),
               ("W2", Worker.new "W2" ⟨none⟩)]
              "W1" (Worker.new "W1" ⟨some "new"⟩), ⟨""⟩, []) ∧
    lookupKey "W1"
      (insertWorker
        [("W1", Worker.new "W1" ⟨some "old"⟩), ("W2", Worker.new "W2" ⟨none⟩)]
        "W1" (Worker.new "W1" ⟨some "new"⟩))
      = some (Worker.new "W1" ⟨some "new"⟩) ∧
    lookupKey "W2"
      (insertWorker
        [("W1", Worker.new "W1" ⟨some "old"⟩), ("W2", Worker.new "W2" ⟨none⟩)]
        "W1" (Worker.new "W1" ⟨some "new"⟩))
      = lookupKey "W2"
          [("W1", Worker.new "W1" ⟨some "old"⟩),
           ("W2", Worker.new "W2" ⟨none⟩)] := by
  have h := start_worker_replaces
    [("W1", Worker.new "W1" ⟨some "old"⟩), ("W2", Worker.new "W2" ⟨none⟩)]
    ⟨"W1", some "new"⟩ (Worker.new "W1" ⟨some "old"⟩) rfl
  exact ⟨h.1, h.2.1, h.2.2 "W2" (by decide)⟩

/-- C1: on the three-transform scenario descriptor with root set
`{CREATE_URN}`, `BundleProcessor::new` followed by `process` produces
exactly the expected call log of the test `test_operator_construction`. -/
theorem scenario_call_log :
    runBundle scenario [CREATE_URN] = .ok scenarioEvents ∧
    scenarioEvents.map render =
      ["z.start_bundle()", "y.start_bundle()",
       "y.process(\"a\")", "z.process(\"a\")",
       "y.process(\"b\")", "z.process(\"b\")",
       "y.process(\"c\")", "z.process(\"c\")",
       "y.finish_bundle()", "z.finish_bundle()"] :=
  ⟨rfl, rfl⟩

/-- Counterexample to C4 as stated: resolving the composite Coder URN Tree
(all three URNs registered in the contributed table) invokes exactly one
constructor — the composite's, with an empty component list. Neither leaf's
constructor is ever invoked, and the composite's constructor never receives
the two resolved child coders. -/
theorem composite_children_not_resolved :
    coder_from_urn ["Composite", "LeafInt", "LeafStr"]
      (.node (customCoderUrn "Composite")
        [.node (customCoderUrn "LeafInt") [],
         .node (customCoderUrn "LeafStr") []])
      = .ok (.custom "Composite", [(customCoderUrn "Composite", [])]) ∧
    (customCoderUrn "Composite",
      [CoderValue.custom "LeafInt", CoderValue.custom "LeafStr"])
      ∉ [(customCoderUrn "Composite", ([] : List CoderValue))] ∧
    (customCoderUrn "LeafInt", ([] : List CoderValue))
      ∉ [(customCoderUrn "Composite", ([] : List CoderValue))] :=
  ⟨rfl, by decide, by decide⟩

/-- C4 (amended): resolution consults only the root URN of the Coder URN
Tree — the children are never resolved and play no role in the result, and
every constructor that is invoked receives the empty component list. -/
theorem coder_resolution_root_only (customs : List String) (u : String)
    (children : List CoderUrnTree) :
    coder_from_urn customs (.node u children)
      = coder_from_urn customs (.node u []) ∧
    ∀ c trace, coder_from_urn customs (.node u children) = .ok (c, trace) →
      trace = [(u, [])] := by
  constructor
  · rfl
  · intro c trace h
    unfold coder_from_urn at h
    simp only [CoderUrnTree.coderUrn] at h
    cases hfind : presetVariants.find? (fun v => v.asStr = u) with
    | some v =>
      rw [hfind] at h
      cases v <;> simp_all
    | none =>
      rw [hfind] at h
      cases hfind2 : customs.find? (fun name => customCoderUrn name = u) with
      | some name =>
        rw [hfind2] at h
        simp_all
      | none =>
        rw [hfind2] at h
        simp_all

/-- Witness for the amended C4, at the registered composite URN with one
child subtree. -/
theorem coder_resolution_root_only_witness :
    coder_from_urn ["Composite"]
        (.node (customCoderUrn "Composite") [.node "child" []])
      = coder_from_urn ["Composite"] (.node (customCoderUrn "Composite") []) ∧
    ([(customCoderUrn "Composite", [])] : List (String × List CoderValue))
      = [(customCoderUrn "Composite", [])] :=
  ⟨(coder_resolution_root_only ["Composite"] (customCoderUrn "Composite")
      [.node "child" []]).1,
   (coder_resolution_root_only ["Composite"] (customCoderUrn "Composite")
      [.node "child" []]).2 (.custom "Composite")
      [(customCoderUrn "Composite", [])] rfl⟩

/-- Counterexample to C5 as stated: a tree whose root URN is the built-in
bytes coder but whose leaf URN matches no built-in variant (and the
contributed table is empty) still resolves successfully to the bytes coder
— the unknown leaf does not fail the resolution. -/
theorem unknown_leaf_still_resolves :
    coder_from_urn []
      (.node PresetCoderUrn.bytes.asStr [.node "beam:coder:unknown:v1" []])
      = .ok (.bytes, [(PresetCoderUrn.bytes.asStr, [])]) ∧
    (∀ v : PresetCoderUrn, v.asStr ≠ "beam:coder:unknown:v1") :=
  ⟨rfl, by decide⟩

/-- C5 (amended): when the ROOT URN of the tree matches no built-in variant
and no contributed registry entry, resolution fails with the unknown-urn
panic, returning no coder; leaf URNs below the root are never examined. -/
theorem coder_resolution_unknown_root (customs : List String)
    (tree : CoderUrnTree)
    (h1 : ∀ v : PresetCoderUrn, v.asStr ≠ tree.coderUrn)
    (h2 : ∀ name ∈ customs, customCoderUrn name ≠ tree.coderUrn) :
    coder_from_urn customs tree = .error (.unknownUrn tree.coderUrn) := by
  unfold coder_from_urn
  have hfind : presetVariants.find? (fun v => v.asStr = tree.coderUrn)
      = none := by
    apply List.find?_eq_none.mpr
    intro v _
    simp [h1 v]
  have hfind2 : customs.find?
      (fun name => customCoderUrn name = tree.coderUrn) = none := by
    apply List.find?_eq_none.mpr
    intro name hmem
    simp [h2 name hmem]
  rw [hfind, hfind2]

/-- Witness for the amended C5, at the claim's literal scenario tree with
an empty contributed table. -/
theorem coder_resolution_unknown_root_witness :
    (∀ v : PresetCoderUrn, v.asStr ≠ "composite") ∧
    coder_from_urn []
        (.node "composite" [.node "leaf-int" [], .node "leaf-str" []])
      = .error (.unknownUrn "composite") :=
  ⟨by decide,
   coder_resolution_unknown_root []
     (.node "composite" [.node "leaf-int" [], .node "leaf-str" []])
     (by decide) (by simp)⟩

/-- C6: installing the contributed coder table a second time in production
mode is a fatal error (the `OnceLock::set(..).expect(..)` crashes instead
of letting the second table shadow the first), while the test-mode
initializer unconditionally replaces the slot with the new table, leaving
no residue of the prior registration (the result does not depend on the
prior slot contents). -/
theorem double_registration_semantics (t1 t2 : List String)
    (slot : Option (List String)) :
    init_custom_coder_from_urn_prod none t1 = .ok (some t1) ∧
    init_custom_coder_from_urn_prod (some t1) t2
      = .error .doubleRegistration ∧
    init_custom_coder_from_urn_test slot t2 = some t2 :=
  ⟨rfl, rfl, rfl⟩

/-- C8: whenever some transform of the descriptor consumes a channel
identifier that no transform produces, graph construction fails with
`MalformedDescriptor` at build time — the run returns the error and no
call log, so no lifecycle call ever occurs. -/
theorem missing_producer_malformed (d : Descriptor) (rootUrns : List String)
    (n : String) (t : PTransform) (ch : String)
    (hmem : (n, t) ∈ d) (hcons : ch ∈ consumedChans t)
    (hnoprod : ∀ e ∈ d, ch ∉ producedChans e.2) :
    runBundle d rootUrns = .error .malformedDescriptor := by
  have hperm := perm_sortEntries d
  have hmem' : (n, t) ∈ sortEntries d := hperm.mem_iff.mpr hmem
  have hmiss : missingProducer (sortEntries d) = true := by
    unfold missingProducer
    rw [List.any_eq_true]
    refine ⟨(n, t), hmem', ?_⟩
    rw [List.any_eq_true]
    refine ⟨ch, hcons, ?_⟩
    rw [Bool.not_eq_true']
    unfold hasProducer
    rw [List.any_eq_false]
    intro e he
    have hne : ch ∉ producedChans e.2 := hnoprod e (hperm.mem_iff.mp he)
    exact fun hmt => hne ((memB_iff ch _).mp hmt)
  have hbuild : buildTopoC (sortEntries d) rootUrns
      = .error .malformedDescriptor := by
    unfold buildTopoC
    rw [hmiss]
    simp
  unfold runBundle runC
  rw [hbuild]

/-- Witness for C8, at the claim's literal scenario: a single consumer of
channel `pcX` that nothing produces. -/
theorem missing_producer_malformed_witness :
    ("w", (⟨RECORDING_URN, [], [("input", "pcX")], []⟩ : PTransform))
      ∈ ([("w", ⟨RECORDING_URN, [], [("input", "pcX")], []⟩)] : Descriptor) ∧
    "pcX" ∈ consumedChans ⟨RECORDING_URN, [], [("input", "pcX")], []⟩ ∧
    (∀ e ∈ ([("w", ⟨RECORDING_URN, [], [("input", "pcX")], []⟩)] : Descriptor),
      "pcX" ∉ producedChans e.2) ∧
    runBundle [("w", ⟨RECORDING_URN, [], [("input", "pcX")], []⟩)] [CREATE_URN]
      = .error .malformedDescriptor :=
  ⟨by decide, by decide, by decide,
   missing_producer_malformed _ [CREATE_URN] "w"
     ⟨RECORDING_URN, [], [("input", "pcX")], []⟩ "pcX"
     (by decide) (by decide) (by decide)⟩

/-! ### Position and count lemmas for the call log -/

theorem posOf_append_left {α : Type} [DecidableEq α] {a : α} :
    ∀ l1 l2 : List α, a ∈ l1 → posOf a (l1 ++ l2) = posOf a l1 := by
  intro l1
  induction l1 with
  | nil => intro l2 h; exact absurd h (List.not_mem_nil a)
  | cons b l1 ih =>
    intro l2 h
    by_cases hb : b = a
    · simp [posOf, hb]
    · have ha : a ∈ l1 := by
        rcases List.mem_cons.mp h with h | h
        · exact absurd h.symm hb
        · exact h
      simp [posOf, hb, ih l2 ha]

theorem posOf_append_right {α : Type} [DecidableEq α] {a : α} :
    ∀ l1 l2 : List α, a ∉ l1 →
      posOf a (l1 ++ l2) = l1.length + posOf a l2 := by
  intro l1
  induction l1 with
  | nil => intro l2 _; simp
  | cons b l1 ih =>
    intro l2 h
    have hb : ¬ (b = a) := fun hba => h (hba ▸ List.mem_cons_self b l1)
    have ha : a ∉ l1 := fun hm => h (List.mem_cons_of_mem b hm)
    simp [posOf, hb, ih l2 ha]
    omega

theorem posOf_map {α β : Type} [DecidableEq α] [DecidableEq β] {f : α → β}
    (hf : ∀ x y, f x = f y → x = y) (a : α) :
    ∀ l : List α, posOf (f a) (l.map f) = posOf a l := by
  intro l
  induction l with
  | nil => rfl
  | cons b l ih =>
    by_cases hb : b = a
    · simp [posOf, hb]
    · have : ¬ (f b = f a) := fun hfb => hb (hf b a hfb)
      simp [posOf, hb, this, ih]

theorem posOf_lt_length {α : Type} [DecidableEq α] {a : α} :
    ∀ l : List α, a ∈ l → posOf a l < l.length := by
  intro l
  induction l with
  | nil => intro h; exact absurd h (List.not_mem_nil a)
  | cons b l ih =>
    intro h
    by_cases hb : b = a
    · simp [posOf, hb]
    · have ha : a ∈ l := by
        rcases List.mem_cons.mp h with h | h
        · exact absurd h.symm hb
        · exact h
      simp [posOf, hb]
      exact ih ha

theorem posOf_lt_of_decomp {α : Type} [DecidableEq α] {x y : α}
    (l1 l2 l3 : List α) (hnd : (l1 ++ (x :: (l2 ++ (y :: l3)))).Nodup) :
    posOf x (l1 ++ (x :: (l2 ++ (y :: l3))))
      < posOf y (l1 ++ (x :: (l2 ++ (y :: l3)))) := by
  have hdisj1 := List.disjoint_of_nodup_append hnd
  have hx1 : x ∉ l1 := fun hx => hdisj1 hx (List.mem_cons_self _ _)
  have hy1 : y ∉ l1 := fun hy =>
    hdisj1 hy (List.mem_cons_of_mem x
      (List.mem_append_right l2 (List.mem_cons_self _ _)))
  have hnd2 : (x :: (l2 ++ (y :: l3))).Nodup := (List.nodup_append.mp hnd).2.1
  have hx2 : x ∉ l2 ++ (y :: l3) := (List.nodup_cons.mp hnd2).1
  have hnd3 : (l2 ++ (y :: l3)).Nodup := (List.nodup_cons.mp hnd2).2
  have hyx : ¬ (x = y) := fun h =>
    hx2 (h ▸ List.mem_append_right l2 (List.mem_cons_self _ _))
  have hy2 : y ∉ l2 := fun hy =>
    List.disjoint_of_nodup_append hnd3 hy (List.mem_cons_self _ _)
  rw [posOf_append_right l1 _ hx1, posOf_append_right l1 _ hy1]
  have hxx : posOf x (x :: (l2 ++ (y :: l3))) = 0 := by simp [posOf]
  have hyy : posOf y (x :: (l2 ++ (y :: l3))) = l2.length + 1 := by
    rw [posOf, if_neg hyx, posOf_append_right l2 _ hy2]
    simp [posOf]
  omega

theorem countOf_append {α : Type} [DecidableEq α] (a : α) :
    ∀ l1 l2 : List α, countOf a (l1 ++ l2) = countOf a l1 + countOf a l2 := by
  intro l1
  induction l1 with
  | nil => intro l2; simp [countOf]
  | cons b l1 ih =>
    intro l2
    by_cases hb : b = a
    · simp [countOf, hb, ih]
      omega
    · simp [countOf, hb, ih]

theorem countOf_map {α β : Type} [DecidableEq α] [DecidableEq β] {f : α → β}
    (hf : ∀ x y, f x = f y → x = y) (a : α) :
    ∀ l : List α, countOf (f a) (l.map f) = countOf a l := by
  intro l
  induction l with
  | nil => rfl
  | cons b l ih =>
    by_cases hb : b = a
    · simp [countOf, hb, ih]
    · have : ¬ (f b = f a) := fun hfb => hb (hf b a hfb)
      simp [countOf, hb, this, ih]

theorem countOf_reverse {α : Type} [DecidableEq α] (a : α) :
    ∀ l : List α, countOf a l.reverse = countOf a l := by
  intro l
  induction l with
  | nil => rfl
  | cons b l ih =>
    rw [List.reverse_cons, countOf_append]
    by_cases hb : b = a
    · simp [countOf, hb, ih]
    · simp [countOf, hb, ih]

theorem countOf_eq_zero {α : Type} [DecidableEq α] {a : α} :
    ∀ l : List α, a ∉ l → countOf a l = 0 := by
  intro l
  induction l with
  | nil => intro _; rfl
  | cons b l ih =>
    intro h
    have hb : ¬ (b = a) := fun hba => h (hba ▸ List.mem_cons_self b l)
    simp [countOf, hb, ih (fun hm => h (List.mem_cons_of_mem b hm))]

theorem countOf_nodup_mem {α : Type} [DecidableEq α] {a : α} :
    ∀ l : List α, l.Nodup → a ∈ l → countOf a l = 1 := by
  intro l
  induction l with
  | nil => intro _ h; exact absurd h (List.not_mem_nil a)
  | cons b l ih =>
    intro hnd h
    by_cases hb : b = a
    · subst hb
      have : b ∉ l := (List.nodup_cons.mp hnd).1
      simp [countOf, countOf_eq_zero l this]
    · have ha : a ∈ l := by
        rcases List.mem_cons.mp h with h | h
        · exact absurd h.symm hb
        · exact h
      simp [countOf, hb, ih (List.nodup_cons.mp hnd).2 ha]

/-! ### Correctness of the Kahn topological ordering -/

theorem key_unique {c : Descriptor} (hnd : (c.map Prod.fst).Nodup)
    {n : String} {a b : PTransform} (ha : (n, a) ∈ c) (hb : (n, b) ∈ c) :
    a = b := by
  induction c with
  | nil => exact absurd ha (List.not_mem_nil _)
  | cons e c ih =>
    rw [List.map_cons, List.nodup_cons] at hnd
    rcases List.mem_cons.mp ha with ha' | ha'
    · rcases List.mem_cons.mp hb with hb' | hb'
      · rw [← ha'] at hb'
        exact (Prod.mk.injEq _ _ _ _ |>.mp hb').2.symm
      · exfalso
        apply hnd.1
        rw [← ha']
        exact List.mem_map.mpr ⟨(n, b), hb', rfl⟩
    · rcases List.mem_cons.mp hb with hb' | hb'
      · exfalso
        apply hnd.1
        rw [← hb']
        exact List.mem_map.mpr ⟨(n, a), ha', rfl⟩
      · exact ih hnd.2 ha' hb'

theorem ready_iff (d : Descriptor) (r placed : List String) (t : PTransform) :
    ready d r placed t = true ↔
      ∀ ch ∈ consumedChans t, ∀ e ∈ d, ch ∈ producedChans e.2 →
        isRootEntry r e = false → e.1 ∈ placed := by
  unfold ready
  rw [List.all_eq_true]
  constructor
  · intro h ch hch e he hprod hroot
    have h2 := h ch hch
    rw [List.all_eq_true] at h2
    have h3 := h2 e he
    simp only [Bool.or_eq_true, Bool.not_eq_true'] at h3
    rcases h3 with (h3 | h3) | h3
    · rw [(memB_iff ch _).mpr hprod] at h3
      exact absurd h3 (by decide)
    · rw [hroot] at h3
      exact absurd h3 (by decide)
    · exact (memB_iff _ _).mp h3
  · intro h ch hch
    rw [List.all_eq_true]
    intro e he
    simp only [Bool.or_eq_true, Bool.not_eq_true']
    by_cases hm : ch ∈ producedChans e.2
    · by_cases hr : isRootEntry r e = true
      · exact Or.inl (Or.inr hr)
      · have hroot : isRootEntry r e = false := by
          cases hb : isRootEntry r e
          · rfl
          · exact absurd hb hr
        exact Or.inr ((memB_iff _ _).mpr (h ch hch e he hm hroot))
    · refine Or.inl (Or.inl ?_)
      cases hmm : memB ch (producedChans e.2)
      · rfl
      · exact absurd ((memB_iff _ _).mp hmm) hm

theorem pickReady_ready (d : Descriptor) (r placed : List String) :
    ∀ (l : List Entry) (er : Entry) (rest : List Entry),
      pickReady d r placed l = some (er, rest) →
      ready d r placed er.2 = true := by
  intro l
  induction l with
  | nil => intro er rest h; simp [pickReady] at h
  | cons e es ih =>
    intro er rest h
    rw [pickReady] at h
    split at h
    · rename_i hr
      injection h with h
      injection h with h1 h2
      rw [← h1]
      exact hr
    · split at h
      · exact absurd h (by simp)
      · rename_i r1 rest1 heq
        injection h with h
        injection h with h1 h2
        rw [← h1]
        exact ih r1 rest1 heq

theorem pickReady_perm (d : Descriptor) (r placed : List String) :
    ∀ (l : List Entry) (er : Entry) (rest : List Entry),
      pickReady d r placed l = some (er, rest) →
      l.Perm (er :: rest) := by
  intro l
  induction l with
  | nil => intro er rest h; simp [pickReady] at h
  | cons e es ih =>
    intro er rest h
    rw [pickReady] at h
    split at h
    · injection h with h
      injection h with h1 h2
      rw [← h1, ← h2]
    · split at h
      · exact absurd h (by simp)
      · rename_i r1 rest1 heq
        injection h with h
        injection h with h1 h2
        rw [← h1, ← h2]
        exact ((ih r1 rest1 heq).cons e).trans (List.Perm.swap r1 e rest1)

theorem kahnLoop_perm (d : Descriptor) (r : List String) :
    ∀ (fuel : Nat) (placed : List String) (rem ts : List Entry),
      kahnLoop d r fuel placed rem = some ts → ts.Perm rem := by
  intro fuel
  induction fuel with
  | zero =>
    intro placed rem ts h
    cases rem with
    | nil =>
      simp only [kahnLoop] at h
      injection h with h
      rw [← h]
    | cons e es => simp [kahnLoop] at h
  | succ fuel ih =>
    intro placed rem ts h
    cases rem with
    | nil =>
      simp only [kahnLoop] at h
      injection h with h
      rw [← h]
    | cons e es =>
      rw [kahnLoop] at h
      split at h
      · exact absurd h (by simp)
      · rename_i r1 rest1 heq
        split at h
        · exact absurd h (by simp)
        · rename_i ts1 heq2
          injection h with h
          rw [← h]
          have hperm1 : ts1.Perm rest1 := ih _ rest1 ts1 heq2
          have hperm2 : (e :: es).Perm (r1 :: rest1) :=
            pickReady_perm d r placed (e :: es) r1 rest1 heq
          exact (hperm1.cons r1).trans hperm2.symm

theorem kahnLoop_topo (d : Descriptor) (r : List String) :
    ∀ (fuel : Nat) (placed : List String) (rem ts : List Entry),
      kahnLoop d r fuel placed rem = some ts → TopoFrom d r placed ts := by
  intro fuel
  induction fuel with
  | zero =>
    intro placed rem ts h
    cases rem with
    | nil =>
      simp only [kahnLoop] at h
      injection h with h
      rw [← h]
      trivial
    | cons e es => simp [kahnLoop] at h
  | succ fuel ih =>
    intro placed rem ts h
    cases rem with
    | nil =>
      simp only [kahnLoop] at h
      injection h with h
      rw [← h]
      trivial
    | cons e es =>
      rw [kahnLoop] at h
      split at h
      · exact absurd h (by simp)
      · rename_i r1 rest1 heq
        split at h
        · exact absurd h (by simp)
        · rename_i ts1 heq2
          injection h with h
          rw [← h]
          exact ⟨pickReady_ready d r placed (e :: es) r1 rest1 heq,
            ih _ rest1 ts1 heq2⟩

theorem topoFrom_split (d : Descriptor) (r : List String) :
    ∀ (ts1 : List Entry) (e : Entry) (ts2 : List Entry) (placed : List String),
      TopoFrom d r placed (ts1 ++ e :: ts2) →
      ready d r ((ts1.map Prod.fst).reverse ++ placed) e.2 = true := by
  intro ts1
  induction ts1 with
  | nil =>
    intro e ts2 placed h
    simpa using h.1
  | cons f ts1 ih =>
    intro e ts2 placed h
    rw [List.cons_append] at h
    have hr := ih e ts2 (f.1 :: placed) h.2
    rw [List.map_cons, List.reverse_cons, List.append_assoc]
    simpa using hr

theorem event_start_inj : ∀ x y : String, Event.start x = Event.start y → x = y := by
  intro x y h
  injection h

theorem event_finish_inj : ∀ x y : String, Event.finish x = Event.finish y → x = y := by
  intro x y h
  injection h

theorem deliverChan_process :
    ∀ (ops : List Entry) (ch el : String) (ev : Event),
      ev ∈ deliverChan ops ch el → ∃ nm e2, ev = Event.process nm e2 := by
  intro ops
  induction ops with
  | nil => intro ch el ev h; simp [deliverChan] at h
  | cons e rest ih =>
    intro ch el ev h
    rw [deliverChan] at h
    split at h
    · rcases List.mem_cons.mp h with h | h
      · exact ⟨e.1, el, h⟩
      · rcases List.mem_append.mp h with h | h
        · rw [List.mem_flatten] at h
          obtain ⟨l, hl, hev⟩ := h
          rw [List.mem_map] at hl
          obtain ⟨oc, _, rfl⟩ := hl
          exact ih oc el ev hev
        · exact ih ch el ev h
    · exact ih ch el ev h

theorem deliverChans_process (ops : List Entry) (chs : List String)
    (el : String) (ev : Event) (h : ev ∈ deliverChans ops chs el) :
    ∃ nm e2, ev = Event.process nm e2 := by
  unfold deliverChans at h
  rw [List.mem_flatten] at h
  obtain ⟨l, hl, hev⟩ := h
  rw [List.mem_map] at hl
  obtain ⟨ch, _, rfl⟩ := hl
  exact deliverChan_process ops ch el ev hev

theorem driveEvents_process (ts roots : List Entry) (ev : Event)
    (h : ev ∈ driveEvents ts roots) : ∃ nm e2, ev = Event.process nm e2 := by
  unfold driveEvents at h
  rw [List.mem_flatten] at h
  obtain ⟨l, hl, hev⟩ := h
  rw [List.mem_map] at hl
  obtain ⟨r, _, rfl⟩ := hl
  rw [List.mem_flatten] at hev
  obtain ⟨l2, hl2, hev2⟩ := hev
  rw [List.mem_map] at hl2
  obtain ⟨el, _, rfl⟩ := hl2
  exact deliverChans_process ts _ el ev hev2

theorem get_append_cases {α : Type} (l1 l2 : List α) (k : Nat)
    (hk : k < (l1 ++ l2).length) :
    (k < l1.length ∧ (l1 ++ l2).get ⟨k, hk⟩ ∈ l1) ∨
    (l1.length ≤ k ∧ ∃ hk2 : k - l1.length < l2.length,
      (l1 ++ l2).get ⟨k, hk⟩ = l2.get ⟨k - l1.length, hk2⟩) := by
  by_cases h : k < l1.length
  · left
    refine ⟨h, ?_⟩
    rw [List.get_eq_getElem, List.getElem_append_left h]
    exact List.getElem_mem h
  · right
    have h1 : l1.length ≤ k := by omega
    have hk2 : k - l1.length < l2.length := by
      rw [List.length_append] at hk
      omega
    refine ⟨h1, hk2, ?_⟩
    rw [List.get_eq_getElem, List.get_eq_getElem]
    exact List.getElem_append_right h1

theorem run_ok_extract (d : Descriptor) (r : List String) (log : List Event)
    (h : runBundle d r = .ok log) :
    ∃ ts, kahnLoop (sortEntries d) r
        (nonRootEntries r (sortEntries d)).length []
        (nonRootEntries r (sortEntries d)) = some ts ∧
      log = runOrderedTopo (sortEntries d) r ts := by
  unfold runBundle runC at h
  cases hb : buildTopoC (sortEntries d) r with
  | error e =>
    rw [hb] at h
    exact absurd h (by simp)
  | ok ts =>
    rw [hb] at h
    injection h with h
    refine ⟨ts, ?_, h.symm⟩
    unfold buildTopoC at hb
    split at hb
    · exact absurd hb (by simp)
    · split at hb
      · exact absurd hb (by simp)
      · split at hb
        · exact absurd hb (by simp)
        · split at hb
          · exact absurd hb (by simp)
          · rename_i ts1 heq
            injection hb with hb
            rw [hb] at heq
            exact heq

theorem run_producer_before_consumer (d : Descriptor) (r : List String)
    (ts : List Entry)
    (hkahn : kahnLoop (sortEntries d) r
      (nonRootEntries r (sortEntries d)).length []
      (nonRootEntries r (sortEntries d)) = some ts)
    (hnd : (d.map Prod.fst).Nodup)
    {np nc : String} {tp tc : PTransform}
    (hpd : (np, tp) ∈ d) (hcd : (nc, tc) ∈ d)
    (hpr : isRootEntry r (np, tp) = false)
    (hcr : isRootEntry r (nc, tc) = false)
    {ch : String} (hprod : ch ∈ producedChans tp)
    (hcons : ch ∈ consumedChans tc) :
    ∃ ts1 ts2 ts3, ts = ts1 ++ ((np, tp) :: (ts2 ++ ((nc, tc) :: ts3))) := by
  have hpermc : (sortEntries d).Perm d := perm_sortEntries d
  have hndc : ((sortEntries d).map Prod.fst).Nodup :=
    ((hpermc.map Prod.fst).nodup_iff).mpr hnd
  have hpc : (np, tp) ∈ sortEntries d := hpermc.mem_iff.mpr hpd
  have hcc : (nc, tc) ∈ sortEntries d := hpermc.mem_iff.mpr hcd
  have hcnr : (nc, tc) ∈ nonRootEntries r (sortEntries d) := by
    unfold nonRootEntries
    rw [List.mem_filter]
    exact ⟨hcc, by rw [hcr]; rfl⟩
  have hpermts : ts.Perm (nonRootEntries r (sortEntries d)) :=
    kahnLoop_perm (sortEntries d) r _ [] _ ts hkahn
  have hcts : (nc, tc) ∈ ts := hpermts.mem_iff.mpr hcnr
  obtain ⟨ts1, ts2, hts⟩ := List.append_of_mem hcts
  have htopo : TopoFrom (sortEntries d) r [] ts :=
    kahnLoop_topo (sortEntries d) r _ [] _ ts hkahn
  rw [hts] at htopo
  have hready : ready (sortEntries d) r
      ((ts1.map Prod.fst).reverse ++ []) tc = true :=
    topoFrom_split (sortEntries d) r ts1 (nc, tc) ts2 [] htopo
  have hin : np ∈ (ts1.map Prod.fst).reverse ++ [] :=
    (ready_iff (sortEntries d) r _ tc).mp hready ch hcons (np, tp) hpc hprod hpr
  rw [List.append_nil, List.mem_reverse] at hin
  obtain ⟨ep, hep, hep1⟩ := List.mem_map.mp hin
  have hepts : ep ∈ ts := by
    rw [hts]
    exact List.mem_append_left _ hep
  have hepc : ep ∈ sortEntries d := by
    have h1 : ep ∈ nonRootEntries r (sortEntries d) := hpermts.mem_iff.mp hepts
    unfold nonRootEntries at h1
    exact (List.mem_filter.mp h1).1
  obtain ⟨epn, ept⟩ := ep
  have hepn : epn = np := hep1
  subst hepn
  have hept : ept = tp := key_unique hndc hepc hpc
  subst hept
  obtain ⟨A, B, hAB⟩ := List.append_of_mem hep
  refine ⟨A, B, ts2, ?_⟩
  rw [hts, hAB]
  simp [List.append_assoc]

/-- C3: for every bundle descriptor accepted at build time, `process`
invokes `start_bundle` on the non-root operators in reverse topological
order and `finish_bundle` in forward topological order: whenever non-root
transform `(np, tp)` produces a channel that non-root transform `(nc, tc)`
consumes, the consumer's `start_bundle` precedes the producer's in the call
log and the producer's `finish_bundle` precedes the consumer's. For a
linear producer-to-consumer chain this is exactly consumer-before-producer
start order and producer-before-consumer finish order. -/
theorem lifecycle_topological_order (d : Descriptor) (rootUrns : List String)
    (log : List Event) (hnd : (d.map Prod.fst).Nodup)
    (hrun : runBundle d rootUrns = .ok log)
    (np nc : String) (tp tc : PTransform) (ch : String)
    (hpd : (np, tp) ∈ d) (hcd : (nc, tc) ∈ d)
    (hpr : isRootEntry rootUrns (np, tp) = false)
    (hcr : isRootEntry rootUrns (nc, tc) = false)
    (hprod : ch ∈ producedChans tp) (hcons : ch ∈ consumedChans tc) :
    Event.start np ∈ log ∧ Event.start nc ∈ log ∧
    Event.finish np ∈ log ∧ Event.finish nc ∈ log ∧
    posOf (Event.start nc) log < posOf (Event.start np) log ∧
    posOf (Event.finish np) log < posOf (Event.finish nc) log := by
  obtain ⟨ts, hkahn, hlog⟩ := run_ok_extract d rootUrns log hrun
  obtain ⟨A, B, C, hts⟩ := run_producer_before_consumer d rootUrns ts hkahn
    hnd hpd hcd hpr hcr hprod hcons
  have hpermc : (sortEntries d).Perm d := perm_sortEntries d
  have hndc : ((sortEntries d).map Prod.fst).Nodup :=
    ((hpermc.map Prod.fst).nodup_iff).mpr hnd
  have hpermts : ts.Perm (nonRootEntries rootUrns (sortEntries d)) :=
    kahnLoop_perm (sortEntries d) rootUrns _ [] _ ts hkahn
  have hndts : (ts.map Prod.fst).Nodup := by
    have hsub : (nonRootEntries rootUrns (sortEntries d)).Sublist
        (sortEntries d) := List.filter_sublist _
    have h1 : ((nonRootEntries rootUrns (sortEntries d)).map Prod.fst).Nodup :=
      List.Nodup.sublist (hsub.map Prod.fst) hndc
    exact ((hpermts.map Prod.fst).nodup_iff).mpr h1
  have hmempts : (np, tp) ∈ ts := by rw [hts]; simp
  have hmemcts : (nc, tc) ∈ ts := by rw [hts]; simp
  have hnames : ts.map Prod.fst
      = A.map Prod.fst ++ (np :: (B.map Prod.fst ++ (nc :: C.map Prod.fst))) := by
    rw [hts]
    simp
  have hlog2 : log = (ts.map (fun e => Event.start e.1)).reverse
      ++ (driveEvents ts (rootEntries rootUrns (sortEntries d))
          ++ ts.map (fun e => Event.finish e.1)) := by
    rw [hlog]
    unfold runOrderedTopo
    rw [List.append_assoc]
  have hS : (ts.map (fun e => Event.start e.1)).reverse
      = ((ts.map Prod.fst).reverse).map Event.start := by
    rw [List.map_reverse, List.map_map]
    rfl
  have hF : ts.map (fun e => Event.finish e.1)
      = (ts.map Prod.fst).map Event.finish := by
    rw [List.map_map]
    rfl
  have hstartS : ∀ (m : String) (tm : PTransform), (m, tm) ∈ ts →
      Event.start m ∈ (ts.map (fun e => Event.start e.1)).reverse := by
    intro m tm hm
    rw [List.mem_reverse]
    exact List.mem_map.mpr ⟨(m, tm), hm, rfl⟩
  have hfinF : ∀ (m : String) (tm : PTransform), (m, tm) ∈ ts →
      Event.finish m ∈ ts.map (fun e => Event.finish e.1) := by
    intro m tm hm
    exact List.mem_map.mpr ⟨(m, tm), hm, rfl⟩
  have hnotSfin : ∀ m : String,
      Event.finish m ∉ (ts.map (fun e => Event.start e.1)).reverse := by
    intro m hmem
    rw [List.mem_reverse, List.mem_map] at hmem
    obtain ⟨e, _, he⟩ := hmem
    simp at he
  have hnotDfin : ∀ m : String,
      Event.finish m ∉ driveEvents ts (rootEntries rootUrns (sortEntries d)) := by
    intro m hmem
    obtain ⟨nm, e2, he⟩ := driveEvents_process _ _ _ hmem
    simp at he
  have hposS : ∀ (m : String) (tm : PTransform), (m, tm) ∈ ts →
      posOf (Event.start m) log = posOf m ((ts.map Prod.fst).reverse) := by
    intro m tm hm
    rw [hlog2, posOf_append_left _ _ (hstartS m tm hm), hS]
    exact posOf_map event_start_inj m ((ts.map Prod.fst).reverse)
  have hposF : ∀ (m : String) (tm : PTransform), (m, tm) ∈ ts →
      posOf (Event.finish m) log =
        (ts.map (fun e => Event.start e.1)).reverse.length
        + ((driveEvents ts (rootEntries rootUrns (sortEntries d))).length
           + posOf m (ts.map Prod.fst)) := by
    intro m tm hm
    rw [hlog2, posOf_append_right _ _ (hnotSfin m),
      posOf_append_right _ _ (hnotDfin m), hF,
      posOf_map event_finish_inj]
  have hrev : (ts.map Prod.fst).reverse
      = (C.map Prod.fst).reverse
        ++ (nc :: ((B.map Prod.fst).reverse
            ++ (np :: (A.map Prod.fst).reverse))) := by
    rw [hnames]
    simp [List.reverse_append, List.append_assoc]
  have hndrev : ((ts.map Prod.fst).reverse).Nodup :=
    List.nodup_reverse.mpr hndts
  have h1 : posOf nc ((ts.map Prod.fst).reverse)
      < posOf np ((ts.map Prod.fst).reverse) := by
    rw [hrev] at hndrev ⊢
    exact posOf_lt_of_decomp _ _ _ hndrev
  have h2 : posOf np (ts.map Prod.fst) < posOf nc (ts.map Prod.fst) := by
    have hndn := hndts
    rw [hnames] at hndn ⊢
    exact posOf_lt_of_decomp _ _ _ hndn
  refine ⟨?_, ?_, ?_, ?_, ?_, ?_⟩
  · rw [hlog2]
    exact List.mem_append_left _ (hstartS np tp hmempts)
  · rw [hlog2]
    exact List.mem_append_left _ (hstartS nc tc hmemcts)
  · rw [hlog2]
    exact List.mem_append_right _
      (List.mem_append_right _ (hfinF np tp hmempts))
  · rw [hlog2]
    exact List.mem_append_right _
      (List.mem_append_right _ (hfinF nc tc hmemcts))
  · rw [hposS np tp hmempts, hposS nc tc hmemcts]
    exact h1
  · rw [hposF np tp hmempts, hposF nc tc hmemcts]
    omega

/-- Witness for C3, at the literal scenario: `y` produces `pc2`, `z`
consumes it; `z.start_bundle` precedes `y.start_bundle`, and
`y.finish_bundle` precedes `z.finish_bundle`. -/
theorem lifecycle_topological_order_witness :
    (scenario.map Prod.fst).Nodup ∧
    Event.start "y" ∈ scenarioEvents ∧ Event.start "z" ∈ scenarioEvents ∧
    Event.finish "y" ∈ scenarioEvents ∧ Event.finish "z" ∈ scenarioEvents ∧
    posOf (Event.start "z") scenarioEvents
      < posOf (Event.start "y") scenarioEvents ∧
    posOf (Event.finish "y") scenarioEvents
      < posOf (Event.finish "z") scenarioEvents :=
  ⟨by decide,
   lifecycle_topological_order scenario [CREATE_URN] scenarioEvents
     (by decide) rfl "y" "z" yT zT "pc2"
     (by decide) (by decide) (by decide) (by decide) (by decide) (by decide)⟩

/-- Counterexample to C7 as stated: in the executed scenario bundle the
root operator `x` never receives a `start_bundle` call (the lifecycle
phases cover non-root operators only), so "start_bundle is called exactly
once for every operator" fails at the root. -/
theorem root_gets_no_start_bundle :
    runBundle scenario [CREATE_URN] = .ok scenarioEvents ∧
    ("x", xT) ∈ scenario ∧
    countOf (Event.start "x") scenarioEvents = 0 ∧
    countOf (Event.finish "x") scenarioEvents = 0 :=
  ⟨rfl, by decide, by decide, by decide⟩

/-- C7 (amended): for every NON-ROOT operator of every executed bundle,
`start_bundle` and `finish_bundle` are each called exactly once, and every
`process` call on that operator lies strictly between its `start_bundle`
and its `finish_bundle` in the call log. (Root operators are driven
externally and receive no lifecycle calls.) -/
theorem lifecycle_exactly_once (d : Descriptor) (rootUrns : List String)
    (log : List Event) (hnd : (d.map Prod.fst).Nodup)
    (hrun : runBundle d rootUrns = .ok log)
    (n : String) (t : PTransform) (hmem : (n, t) ∈ d)
    (hnr : isRootEntry rootUrns (n, t) = false) :
    countOf (Event.start n) log = 1 ∧ countOf (Event.finish n) log = 1 ∧
    ∀ (k : Nat) (hk : k < log.length) (el : String),
      log.get ⟨k, hk⟩ = Event.process n el →
      posOf (Event.start n) log < k ∧ k < posOf (Event.finish n) log := by
  obtain ⟨ts, hkahn, hlog⟩ := run_ok_extract d rootUrns log hrun
  have hpermc : (sortEntries d).Perm d := perm_sortEntries d
  have hndc : ((sortEntries d).map Prod.fst).Nodup :=
    ((hpermc.map Prod.fst).nodup_iff).mpr hnd
  have hpermts : ts.Perm (nonRootEntries rootUrns (sortEntries d)) :=
    kahnLoop_perm (sortEntries d) rootUrns _ [] _ ts hkahn
  have hndts : (ts.map Prod.fst).Nodup := by
    have hsub : (nonRootEntries rootUrns (sortEntries d)).Sublist
        (sortEntries d) := List.filter_sublist _
    have h1 : ((nonRootEntries rootUrns (sortEntries d)).map Prod.fst).Nodup :=
      List.Nodup.sublist (hsub.map Prod.fst) hndc
    exact ((hpermts.map Prod.fst).nodup_iff).mpr h1
  have hmemts : (n, t) ∈ ts := by
    apply hpermts.mem_iff.mpr
    unfold nonRootEntries
    rw [List.mem_filter]
    exact ⟨hpermc.mem_iff.mpr hmem, by rw [hnr]; rfl⟩
  have hnnames : n ∈ ts.map Prod.fst := List.mem_map.mpr ⟨(n, t), hmemts, rfl⟩
  have hlog2 : log = (ts.map (fun e => Event.start e.1)).reverse
      ++ (driveEvents ts (rootEntries rootUrns (sortEntries d))
          ++ ts.map (fun e => Event.finish e.1)) := by
    rw [hlog]
    unfold runOrderedTopo
    rw [List.append_assoc]
  have hS : (ts.map (fun e => Event.start e.1)).reverse
      = ((ts.map Prod.fst).reverse).map Event.start := by
    rw [List.map_reverse, List.map_map]
    rfl
  have hF : ts.map (fun e => Event.finish e.1)
      = (ts.map Prod.fst).map Event.finish := by
    rw [List.map_map]
    rfl
  have hstartS : Event.start n ∈ (ts.map (fun e => Event.start e.1)).reverse := by
    rw [List.mem_reverse]
    exact List.mem_map.mpr ⟨(n, t), hmemts, rfl⟩
  have hnotSfin : ∀ m : String,
      Event.finish m ∉ (ts.map (fun e => Event.start e.1)).reverse := by
    intro m hmem2
    rw [List.mem_reverse, List.mem_map] at hmem2
    obtain ⟨e, _, he⟩ := hmem2
    simp at he
  have hnotFstart : ∀ m : String,
      Event.start m ∉ ts.map (fun e => Event.finish e.1) := by
    intro m hmem2
    rw [List.mem_map] at hmem2
    obtain ⟨e, _, he⟩ := hmem2
    simp at he
  have hnotDstart : ∀ m : String,
      Event.start m ∉ driveEvents ts (rootEntries rootUrns (sortEntries d)) := by
    intro m hmem2
    obtain ⟨nm, e2, he⟩ := driveEvents_process _ _ _ hmem2
    simp at he
  have hnotDfin : ∀ m : String,
      Event.finish m ∉ driveEvents ts (rootEntries rootUrns (sortEntries d)) := by
    intro m hmem2
    obtain ⟨nm, e2, he⟩ := driveEvents_process _ _ _ hmem2
    simp at he
  have hposS : posOf (Event.start n) log
      = posOf n ((ts.map Prod.fst).reverse) := by
    rw [hlog2, posOf_append_left _ _ hstartS, hS]
    exact posOf_map event_start_inj n ((ts.map Prod.fst).reverse)
  have hposSlt : posOf (Event.start n) log
      < (ts.map (fun e => Event.start e.1)).reverse.length := by
    rw [hlog2, posOf_append_left _ _ hstartS]
    exact posOf_lt_length _ hstartS
  have hposF : posOf (Event.finish n) log =
      (ts.map (fun e => Event.start e.1)).reverse.length
      + ((driveEvents ts (rootEntries rootUrns (sortEntries d))).length
         + posOf n (ts.map Prod.fst)) := by
    rw [hlog2, posOf_append_right _ _ (hnotSfin n),
      posOf_append_right _ _ (hnotDfin n), hF,
      posOf_map event_finish_inj]
  refine ⟨?_, ?_, ?_⟩
  · rw [hlog2, countOf_append, countOf_append]
    rw [hS, countOf_map event_start_inj, countOf_reverse,
      countOf_nodup_mem _ hndts hnnames,
      countOf_eq_zero _ (hnotDstart n),
      countOf_eq_zero _ (hnotFstart n)]
  · rw [hlog2, countOf_append, countOf_append]
    rw [hF, countOf_map event_finish_inj,
      countOf_nodup_mem _ hndts hnnames,
      countOf_eq_zero _ (hnotSfin n),
      countOf_eq_zero _ (hnotDfin n)]
  · rw [hlog2] at hposS hposSlt hposF ⊢
    intro k hk el hget
    rcases get_append_cases _ _ k hk with ⟨hlt, hmem2⟩ | ⟨hge, hk2, hev⟩
    · rw [hget] at hmem2
      rw [List.mem_reverse, List.mem_map] at hmem2
      obtain ⟨e, _, he⟩ := hmem2
      simp at he
    · rcases get_append_cases _ _ _ hk2 with ⟨hlt2, _⟩ | ⟨hge2, hk3, hev2⟩
      · constructor
        · omega
        · rw [hposF]
          omega
      · exfalso
        have hmem3 : Event.process n el ∈ ts.map (fun e => Event.finish e.1) := by
          rw [← hget, hev, hev2]
          apply List.get_mem
        rw [List.mem_map] at hmem3
        obtain ⟨e, _, he⟩ := hmem3
        simp at he

/-- Witness for the amended C7, at the literal scenario and operator `y`. -/
theorem lifecycle_exactly_once_witness :
    (scenario.map Prod.fst).Nodup ∧
    countOf (Event.start "y") scenarioEvents = 1 ∧
    countOf (Event.finish "y") scenarioEvents = 1 ∧
    ∀ (k : Nat) (hk : k < scenarioEvents.length) (el : String),
      scenarioEvents.get ⟨k, hk⟩ = Event.process "y" el →
      posOf (Event.start "y") scenarioEvents < k ∧
      k < posOf (Event.finish "y") scenarioEvents :=
  ⟨by decide,
   lifecycle_exactly_once scenario [CREATE_URN] scenarioEvents
     (by decide) rfl "y" yT (by decide) (by decide)⟩

end BeamWorker
